import Mathlib

/-!
Verification of the finite Collatz-certificate verifiers.

This file embeds the core integer algorithms of the repository
(`verify_A16.py`, `verifier/deterministic_verifier_m16_J16_K4.py`,
`verifier/u_cycle_verifier_m16.py`) as executable Lean definitions over ℤ/ℕ
(Python's arbitrary-precision integers are modelled by ℤ, with Python's `%`
on a positive modulus being `Int.emod` and `>>` on nonnegative values being
floor division), and proves the specified properties of those definitions.
-/

/-! ## Python integer primitives shared by all scripts -/

/-- Python's `int.bit_length()`: the number of bits needed to write `|m|`
in binary, with `(0).bit_length() = 0`.  `Nat.size` is exactly that bit count. -/
def pyBitLength (m : Int) : Int :=
  (Nat.size m.natAbs : Int)

/-- Source `v2(n) = (n & -n).bit_length() - 1` (identical in `verify_A16.py`,
`deterministic_verifier_m16_J16_K4.py` and `u_cycle_verifier_m16.py`):
the 2-adic valuation of `n` for `n > 0`, computed by isolating the lowest set
bit of `n` via the two's-complement trick `n & -n`. -/
def v2 (n : Int) : Int :=
  pyBitLength (Int.land n (-n)) - 1

/-- Python's `a >> k` for the nonnegative shift counts used by these scripts:
an arithmetic right shift, i.e. floor division by `2 ^ k`. -/
def pyShiftRight (a : Int) (k : Int) : Int :=
  Int.fdiv a (2 ^ k.toNat)

/-- Source `odd_collatz_step(x)`: `t = 3*x + 1; b = v2(t); return (t >> b, b)`
(identical in `verify_A16.py` and `deterministic_verifier_m16_J16_K4.py`).
One step of the odd Collatz map `U` on odd `x`, returning `(x_next, b)` with
`b = v2(3x+1)`. -/
def odd_collatz_step (x : Int) : Int × Int :=
  let t := 3 * x + 1
  let b := v2 t
  (pyShiftRight t b, b)

/-! ## The lowest-set-bit identity

For `n > 0`, the two's-complement expression `n & -n` evaluates (through
`Int.land` on a positive and a negative argument) to `Nat.ldiff n (n-1)`,
which is the power of two `2 ^ v₂(n)` where `v₂` is the 2-adic valuation
(`Nat.factorization · 2`). -/

theorem land_neg_eq_ldiff (n : Nat) (hn : 0 < n) :
    Int.land (n : Int) (-(n : Int)) = (Nat.ldiff n (n - 1) : Int) := by
  obtain ⟨m, rfl⟩ := Nat.exists_eq_succ_of_ne_zero hn.ne'
  rfl

theorem ldiff_two_pow_mul_pred (K M : Nat) (hM : M % 2 = 1) :
    Nat.ldiff (2 ^ K * M) (2 ^ K * M - 1) = 2 ^ K := by
  have hMpos : 0 < M := by omega
  apply Nat.eq_of_testBit_eq
  intro i
  rw [Nat.testBit_ldiff, Nat.testBit_two_pow]
  have h2i : (0:ℕ) < 2 ^ i := Nat.pos_pow_of_pos i (by norm_num)
  rcases lt_trichotomy i K with hlt | rfl | hgt
  · -- below the valuation, every bit of n is 0
    have hbit : (2 ^ K * M).testBit i = false := by
      rw [Nat.testBit_to_div_mod]
      have hdiv : 2 ^ K * M / 2 ^ i = 2 ^ (K - i) * M := by
        have h1 : (2:ℕ) ^ K = 2 ^ i * 2 ^ (K - i) := by
          rw [← pow_add]; congr 1; omega
        rw [h1, Nat.mul_assoc, Nat.mul_div_cancel_left _ h2i]
      have heven : 2 ^ K * M / 2 ^ i % 2 = 0 := by
        rw [hdiv]
        cases hKi : K - i with
        | zero => omega
        | succ k => simp [Nat.pow_succ, Nat.mul_assoc, Nat.mul_mod]
      simp [heven]
    rw [hbit]
    simp only [Bool.false_and]
    symm; simp only [decide_eq_false_iff_not]; omega
  · -- at the valuation: bit of n is 1, bit of n-1 is 0
    have hbitn : (2 ^ i * M).testBit i = true := by
      rw [Nat.testBit_to_div_mod, Nat.mul_div_cancel_left _ h2i]
      simp [hM]
    have hbitp : (2 ^ i * M - 1).testBit i = false := by
      rw [Nat.testBit_to_div_mod]
      have hn1 : 2 ^ i * M - 1 = 2 ^ i * (M - 1) + (2 ^ i - 1) := by
        have h1 : 2 ^ i * M = 2 ^ i * (M - 1) + 2 ^ i := by
          cases M with
          | zero => omega
          | succ m => simp [Nat.mul_succ]
        omega
      have hdiv : (2 ^ i * M - 1) / 2 ^ i = M - 1 := by
        have hz : (2 ^ i - 1) / 2 ^ i = 0 := Nat.div_eq_of_lt (by omega)
        rw [hn1, Nat.mul_add_div h2i, hz, Nat.add_zero]
      have hpar : (M - 1) % 2 = 0 := by omega
      simp [hdiv, hpar]
    rw [hbitn, hbitp]
    simp
  · -- above the valuation, the bits of n and n-1 agree
    have hndvd : ¬ 2 ^ i ∣ 2 ^ K * M := by
      intro hdvd
      have h1 : (2:ℕ) ^ i = 2 ^ K * 2 ^ (i - K) := by
        rw [← pow_add]; congr 1; omega
      rw [h1] at hdvd
      have h2K : (0:ℕ) < 2 ^ K := Nat.pos_pow_of_pos K (by norm_num)
      have h2 : 2 ^ (i - K) ∣ M := (mul_dvd_mul_iff_left h2K.ne').mp hdvd
      have h3 : (2:ℕ) ∣ 2 ^ (i - K) := dvd_pow_self 2 (by omega)
      have h4 : (2:ℕ) ∣ M := h3.trans h2
      omega
    have hr : 2 ^ K * M % 2 ^ i ≠ 0 := fun h => hndvd (Nat.dvd_iff_mod_eq_zero.mpr h)
    have hdiv : (2 ^ K * M - 1) / 2 ^ i = 2 ^ K * M / 2 ^ i := by
      have hsplit : 2 ^ i * (2 ^ K * M / 2 ^ i) + 2 ^ K * M % 2 ^ i = 2 ^ K * M :=
        Nat.div_add_mod _ _
      have hmlt : 2 ^ K * M % 2 ^ i < 2 ^ i := Nat.mod_lt _ h2i
      have hn1 : 2 ^ K * M - 1 = 2 ^ i * (2 ^ K * M / 2 ^ i) + (2 ^ K * M % 2 ^ i - 1) := by
        omega
      have hz : (2 ^ K * M % 2 ^ i - 1) / 2 ^ i = 0 := Nat.div_eq_of_lt (by omega)
      rw [hn1, Nat.mul_add_div h2i, hz, Nat.add_zero]
    rw [Nat.testBit_to_div_mod, Nat.testBit_to_div_mod, hdiv, Bool.and_not_self]
    symm; simp only [decide_eq_false_iff_not]; omega

theorem ldiff_pred_eq_pow (n : Nat) (hn : 0 < n) :
    Nat.ldiff n (n - 1) = 2 ^ n.factorization 2 := by
  have hKM : 2 ^ n.factorization 2 * (n / 2 ^ n.factorization 2) = n :=
    Nat.ordProj_mul_ordCompl_eq_self n 2
  have hModd : ¬ 2 ∣ n / 2 ^ n.factorization 2 := Nat.not_dvd_ordCompl Nat.prime_two hn.ne'
  have hM : n / 2 ^ n.factorization 2 % 2 = 1 := Nat.two_dvd_ne_zero.mp hModd
  conv_lhs => rw [← hKM]
  exact ldiff_two_pow_mul_pred _ _ hM

/-- Key evaluation of the source `v2` on a positive integer: it returns the
2-adic valuation (`Nat.factorization · 2`). -/
theorem v2_coe_nat (n : Nat) (hn : 0 < n) :
    v2 (n : Int) = (n.factorization 2 : Int) := by
  unfold v2 pyBitLength
  rw [land_neg_eq_ldiff n hn, ldiff_pred_eq_pow n hn]
  rw [Int.natAbs_ofNat, Nat.size_pow]
  push_cast
  ring

/-! ## Specification theorems for the valuation primitive and the odd step -/

/-- C6. For every strictly positive integer `n`, `v2 n` is the largest `k`
such that `2 ^ k` divides `n` (the exact count of trailing zero bits). -/
theorem v2_is_two_adic_valuation (n : Int) (hn : 0 < n) :
    0 ≤ v2 n ∧ 2 ^ (v2 n).toNat ∣ n ∧ ∀ k : Nat, (2 : Int) ^ k ∣ n → (k : Int) ≤ v2 n := by
  have hNn : ((n.toNat : Nat) : Int) = n := Int.toNat_of_nonneg hn.le
  have hpos : 0 < n.toNat := by omega
  have hv : v2 n = (n.toNat.factorization 2 : Int) := by
    rw [← hNn]; exact v2_coe_nat n.toNat hpos
  refine ⟨by rw [hv]; positivity, ?_, ?_⟩
  · rw [hv, Int.toNat_natCast, ← hNn]
    have : (2 : ℕ) ^ n.toNat.factorization 2 ∣ n.toNat := Nat.ordProj_dvd n.toNat 2
    exact_mod_cast this
  · intro k hk
    rw [hv]
    have hk' : (2 : ℕ) ^ k ∣ n.toNat := by
      rw [← hNn] at hk; exact_mod_cast hk
    have := (Nat.Prime.pow_dvd_iff_le_factorization Nat.prime_two hpos.ne').mp hk'
    exact_mod_cast this

/-- C6 witness: the theorem applied at the concrete input `n = 12`. -/
theorem v2_is_two_adic_valuation_witness :
    (0 : Int) < 12 ∧ (0 ≤ v2 12 ∧ 2 ^ (v2 12).toNat ∣ (12 : Int) ∧
      ∀ k : Nat, (2 : Int) ^ k ∣ 12 → (k : Int) ≤ v2 12) :=
  ⟨by norm_num, v2_is_two_adic_valuation 12 (by norm_num)⟩

theorem v2_zero_eval : v2 0 = -1 := by
  have h : Int.land 0 (-0) = 0 := by norm_num [Int.land]
  unfold v2 pyBitLength
  rw [h]
  simp

/-- C7 counterexample: invoked at `n = 0`, the source `v2` does not fail:
`(0 & -0).bit_length() - 1` evaluates to the ordinary value `-1`.  There is no
precondition check anywhere in the function body. -/
theorem v2_zero_returns_value : v2 0 = -1 := v2_zero_eval

/-- C7 amended: at `n = 0` the valuation primitive silently returns the
sentinel value `-1` — a negative number, hence distinguishable from every
genuine valuation — instead of failing fast. -/
theorem v2_zero_amended : v2 0 = -1 ∧ v2 0 < 0 := by
  rw [v2_zero_eval]
  norm_num

/-- Evaluation form of the odd Collatz step on a positive odd integer:
`odd_collatz_step x = (M, K)` where `3x + 1 = 2 ^ K * M` with `M` odd and
`K ≥ 1`. -/
theorem odd_collatz_step_eval (x : Int) (hodd : x % 2 = 1) (hpos : 0 < x) :
    ∃ M K : Nat, M % 2 = 1 ∧ 1 ≤ K ∧
      odd_collatz_step x = ((M : Int), (K : Int)) ∧ (2 : Int) ^ K * M = 3 * x + 1 := by
  have ht : (0 : Int) < 3 * x + 1 := by omega
  set t : Int := 3 * x + 1 with htdef
  have hNt : ((t.toNat : Nat) : Int) = t := Int.toNat_of_nonneg ht.le
  have htpos : 0 < t.toNat := by omega
  set n : Nat := t.toNat with hndef
  set K : Nat := n.factorization 2 with hKdef
  have hv : v2 t = (K : Int) := by rw [← hNt]; exact v2_coe_nat n htpos
  have hKM : 2 ^ K * (n / 2 ^ K) = n := Nat.ordProj_mul_ordCompl_eq_self n 2
  set M : Nat := n / 2 ^ K with hMdef
  have hModd : M % 2 = 1 :=
    Nat.two_dvd_ne_zero.mp (Nat.not_dvd_ordCompl Nat.prime_two htpos.ne')
  have hK1 : 1 ≤ K := by
    have h2t : (2 : Int) ∣ t := by omega
    have h2n : (2 : ℕ) ∣ n := by rw [← hNt] at h2t; exact_mod_cast h2t
    have h21 : (2 : ℕ) ^ 1 ∣ n := by simpa using h2n
    have := (Nat.Prime.pow_dvd_iff_le_factorization Nat.prime_two htpos.ne').mp h21
    omega
  refine ⟨M, K, hModd, hK1, ?_, ?_⟩
  · show (pyShiftRight t (v2 t), v2 t) = ((M : Int), (K : Int))
    rw [hv]
    unfold pyShiftRight
    rw [Int.toNat_natCast]
    have h2K : ((2 ^ K : Nat) : Int) = (2 : Int) ^ K := by push_cast; ring
    rw [← hNt, ← h2K, Int.fdiv_eq_tdiv (by positivity) (by positivity),
      ← Int.ofNat_tdiv]
  · rw [← hNt]
    exact_mod_cast congrArg (fun m : Nat => (m : Int)) hKM

/-- C2. For every odd positive integer `x`, `odd_collatz_step x = (x_next, b)`
satisfies: `x_next` is odd, `b ≥ 1`, and `x_next * 2 ^ b = 3 * x + 1` exactly. -/
theorem odd_collatz_step_spec (x : Int) (hodd : x % 2 = 1) (hpos : 0 < x) :
    (odd_collatz_step x).1 % 2 = 1 ∧ 1 ≤ (odd_collatz_step x).2 ∧
      (odd_collatz_step x).1 * 2 ^ ((odd_collatz_step x).2).toNat = 3 * x + 1 := by
  obtain ⟨M, K, hModd, hK1, heq, hprod⟩ := odd_collatz_step_eval x hodd hpos
  rw [heq]
  refine ⟨?_, ?_, ?_⟩
  · show (M : Int) % 2 = 1
    omega
  · show (1 : Int) ≤ (K : Int)
    exact_mod_cast hK1
  · show (M : Int) * 2 ^ ((K : Int)).toNat = 3 * x + 1
    rw [Int.toNat_natCast, mul_comm]
    exact hprod

/-- C2 witness: the theorem applied at the concrete input `x = 3`
(where `3x + 1 = 10 = 2 * 5`). -/
theorem odd_collatz_step_spec_witness :
    ((3 : Int) % 2 = 1 ∧ (0 : Int) < 3) ∧
      ((odd_collatz_step 3).1 % 2 = 1 ∧ 1 ≤ (odd_collatz_step 3).2 ∧
        (odd_collatz_step 3).1 * 2 ^ ((odd_collatz_step 3).2).toNat = 3 * 3 + 1) :=
  ⟨⟨by norm_num, by norm_num⟩, odd_collatz_step_spec 3 (by norm_num) (by norm_num)⟩

/-! ## verify_A16.py: bounded witness search -/

/-- The odd Collatz map `U(x) = (3x+1) / 2^(v2(3x+1))`, i.e. the first
component of `odd_collatz_step` (used to state trajectory properties). -/
def U (x : Int) : Int := (odd_collatz_step x).1

namespace VerifyA16

/-- Inner loop of `find_witness_for_r` over `j in range(J)`: examine
`b = odd_collatz_step(x)[1]` for the current `x`; if `b >= K` return `(j, b)`,
otherwise advance `x` by a second call to `odd_collatz_step` (on the same `x`,
so the state advances exactly one step per iteration).  `fuel` counts the
remaining iterations; the function is entered with `fuel = J`. -/
def innerSearch (K : Int) : Nat → Int → Nat → Option (Nat × Int)
  | 0, _, _ => none
  | fuel + 1, x, j =>
    if K ≤ (odd_collatz_step x).2 then some (j, (odd_collatz_step x).2)
    else innerSearch K fuel (odd_collatz_step x).1 (j + 1)

/-- Outer loop of `find_witness_for_r` over `ell in range(16)`: set
`x = r + (ell << m0)`, run the inner loop, and return `(ell, j, b)` on the
first inner hit.  `rem` counts the remaining lifts; entered with `rem = 16`,
`ell = 0`. -/
def outerSearch (m0 J : Nat) (K : Int) (r : Int) : Nat → Nat → Option (Nat × Nat × Int)
  | 0, _ => none
  | rem + 1, ell =>
    match innerSearch K J (r + ((ell <<< m0 : Nat) : Int)) 0 with
    | some (j, b) => some (ell, j, b)
    | none => outerSearch m0 J K r rem (ell + 1)

/-- Source `find_witness_for_r(r, m0=16, J=16, K=4)`: search lifts
`ell = 0..15` (hard-coded 16 in the source), steps `j = 0..J-1`, for the first
`b = v2(3*x_j+1) >= K`, in lexicographic order `(ell, j)`. -/
def find_witness_for_r (r : Int) (m0 : Nat := 16) (J : Nat := 16) (K : Int := 4) :
    Option (Nat × Nat × Int) :=
  outerSearch m0 J K r 16 0

/-- The `j`-th iterate `x_j` of the odd Collatz map starting from
`x_0 = r + ell * 2^m0` (the trajectory examined by the search). -/
def xIter (r : Int) (m0 : Nat) (ell : Nat) (j : Nat) : Int :=
  U^[j] (r + ((ell <<< m0 : Nat) : Int))

/-- The spike condition at position `(ell, j)`: the valuation observed at the
`j`-th iterate reaches the threshold `K`. -/
def spikeAt (r : Int) (m0 : Nat) (K : Int) (ell j : Nat) : Prop :=
  K ≤ (odd_collatz_step (xIter r m0 ell j)).2

instance (r : Int) (m0 : Nat) (K : Int) (ell j : Nat) :
    Decidable (spikeAt r m0 K ell j) := by
  unfold spikeAt; infer_instance

theorem innerSearch_none_iff (K : Int) (fuel : Nat) :
    ∀ (x : Int) (j : Nat),
      innerSearch K fuel x j = none ↔
        ∀ i, i < fuel → ¬ K ≤ (odd_collatz_step (U^[i] x)).2 := by
  induction fuel with
  | zero => intro x j; simp [innerSearch]
  | succ fuel ih =>
    intro x j
    unfold innerSearch
    by_cases h : K ≤ (odd_collatz_step x).2
    · simp only [if_pos h]
      constructor
      · intro hcontra; exact absurd hcontra (by simp)
      · intro hall
        exact absurd h (by simpa using hall 0 (by omega))
    · simp only [if_neg h]
      rw [ih]
      simp only [show (odd_collatz_step x).1 = U x from rfl]
      constructor
      · intro hall i hi
        cases i with
        | zero => simpa using h
        | succ i' =>
          rw [Function.iterate_succ_apply]
          exact hall i' (by omega)
      · intro hall i hi
        rw [← Function.iterate_succ_apply]
        exact hall (i + 1) (by omega)

theorem innerSearch_some_iff (K : Int) (fuel : Nat) :
    ∀ (x : Int) (j j' : Nat) (b : Int),
      innerSearch K fuel x j = some (j', b) ↔
        ∃ i, i < fuel ∧ j' = j + i ∧ b = (odd_collatz_step (U^[i] x)).2 ∧
          K ≤ (odd_collatz_step (U^[i] x)).2 ∧
          ∀ i', i' < i → ¬ K ≤ (odd_collatz_step (U^[i'] x)).2 := by
  induction fuel with
  | zero => intro x j j' b; simp [innerSearch]
  | succ fuel ih =>
    intro x j j' b
    unfold innerSearch
    by_cases h : K ≤ (odd_collatz_step x).2
    · simp only [if_pos h, Option.some_inj]
      constructor
      · rintro ⟨rfl, rfl⟩
        exact ⟨0, by omega, by omega, by simp, by simpa using h, by omega⟩
      · rintro ⟨i, hi, rfl, rfl, hspike, hmin⟩
        cases i with
        | zero => simp
        | succ i' => exact absurd h (by simpa using hmin 0 (by omega))
    · simp only [if_neg h]
      rw [ih]
      simp only [show (odd_collatz_step x).1 = U x from rfl]
      constructor
      · rintro ⟨i, hi, rfl, rfl, hspike, hmin⟩
        refine ⟨i + 1, by omega, by omega, ?_, ?_, ?_⟩
        · rw [Function.iterate_succ_apply]
        · rw [Function.iterate_succ_apply]; exact hspike
        · intro i' hi'
          cases i' with
          | zero => simpa using h
          | succ i'' =>
            rw [Function.iterate_succ_apply]
            exact hmin i'' (by omega)
      · rintro ⟨i, hi, rfl, rfl, hspike, hmin⟩
        cases i with
        | zero => exact absurd (by simpa using hspike) h
        | succ i' =>
          refine ⟨i', by omega, by omega, ?_, ?_, ?_⟩
          · rw [← Function.iterate_succ_apply]
          · rw [← Function.iterate_succ_apply]; exact hspike
          · intro i'' hi''
            rw [← Function.iterate_succ_apply]
            exact hmin (i'' + 1) (by omega)

end VerifyA16

namespace VerifyA16

theorem outerSearch_none_iff (m0 J : Nat) (K : Int) (r : Int) (rem : Nat) :
    ∀ ell, outerSearch m0 J K r rem ell = none ↔
      ∀ e, ell ≤ e → e < ell + rem →
        innerSearch K J (r + ((e <<< m0 : Nat) : Int)) 0 = none := by
  induction rem with
  | zero => intro ell; simp [outerSearch]; omega
  | succ rem ih =>
    intro ell
    unfold outerSearch
    cases h : innerSearch K J (r + ((ell <<< m0 : Nat) : Int)) 0 with
    | some p =>
      simp only
      constructor
      · intro hcontra; exact absurd hcontra (by simp)
      · intro hall
        exact absurd (hall ell (by omega) (by omega)) (by simp [h])
    | none =>
      simp only
      rw [ih]
      constructor
      · intro hall e he1 he2
        rcases Nat.eq_or_lt_of_le he1 with rfl | hlt
        · exact h
        · exact hall e (by omega) (by omega)
      · intro hall e he1 he2
        exact hall e (by omega) (by omega)

theorem outerSearch_some_iff (m0 J : Nat) (K : Int) (r : Int) (rem : Nat) :
    ∀ ell ellw j b, outerSearch m0 J K r rem ell = some (ellw, j, b) ↔
      ell ≤ ellw ∧ ellw < ell + rem ∧
      innerSearch K J (r + ((ellw <<< m0 : Nat) : Int)) 0 = some (j, b) ∧
      ∀ e, ell ≤ e → e < ellw →
        innerSearch K J (r + ((e <<< m0 : Nat) : Int)) 0 = none := by
  induction rem with
  | zero => intro ell ellw j b; simp [outerSearch]; omega
  | succ rem ih =>
    intro ell ellw j b
    unfold outerSearch
    cases h : innerSearch K J (r + ((ell <<< m0 : Nat) : Int)) 0 with
    | some p =>
      obtain ⟨j0, b0⟩ := p
      simp only [Option.some_inj]
      constructor
      · rintro ⟨rfl, rfl, rfl⟩
        exact ⟨le_refl _, by omega, h, by omega⟩
      · rintro ⟨he1, he2, hinner, hmin⟩
        rcases Nat.eq_or_lt_of_le he1 with rfl | hlt
        · rw [h] at hinner
          obtain ⟨rfl, rfl⟩ : j0 = j ∧ b0 = b := by
            constructor <;> [exact congrArg Prod.fst (Option.some_inj.mp hinner);
              exact congrArg Prod.snd (Option.some_inj.mp hinner)]
          rfl
        · exact absurd (hmin ell (le_refl _) hlt) (by simp [h])
    | none =>
      simp only
      rw [ih]
      constructor
      · rintro ⟨he1, he2, hinner, hmin⟩
        refine ⟨by omega, by omega, hinner, ?_⟩
        intro e hee1 hee2
        rcases Nat.eq_or_lt_of_le hee1 with rfl | hlt
        · exact h
        · exact hmin e (by omega) hee2
      · rintro ⟨he1, he2, hinner, hmin⟩
        have hne : ellw ≠ ell := by
          rintro rfl
          rw [h] at hinner
          exact absurd hinner (by simp)
        refine ⟨by omega, by omega, hinner, ?_⟩
        intro e hee1 hee2
        exact hmin e (by omega) hee2

/-- C1. `find_witness_for_r r m0 J K` returns `none` iff no pair
`(ell, j)` with `ell < 16`, `j < J` has a spike `v2(3*x_j+1) ≥ K` on the
trajectory starting at `r + ell*2^m0`; and when it returns
`some (ell, j, b)`, that pair satisfies the spike condition, `b` is the
observed valuation at step `j`, and `(ell, j)` is lexicographically least
(`ell` major, `j` minor) among all satisfying pairs. -/
theorem find_witness_for_r_spec (r : Int) (m0 J : Nat) (K : Int) :
    (find_witness_for_r r m0 J K = none ↔
      ∀ ell j, ell < 16 → j < J → ¬ spikeAt r m0 K ell j) ∧
    (∀ ell j b, find_witness_for_r r m0 J K = some (ell, j, b) →
      ell < 16 ∧ j < J ∧ spikeAt r m0 K ell j ∧
      b = (odd_collatz_step (xIter r m0 ell j)).2 ∧
      ∀ ell' j', ell' < 16 → j' < J → spikeAt r m0 K ell' j' →
        ell < ell' ∨ (ell = ell' ∧ j ≤ j')) := by
  constructor
  · unfold find_witness_for_r
    rw [outerSearch_none_iff]
    constructor
    · intro hall ell j hell hj hspike
      have hinner := hall ell (by omega) (by omega)
      rw [innerSearch_none_iff] at hinner
      exact hinner j hj hspike
    · intro hall e _ he
      rw [innerSearch_none_iff]
      intro i hi hspike
      exact hall e i (by omega) hi hspike
  · intro ell j b hfind
    unfold find_witness_for_r at hfind
    rw [outerSearch_some_iff] at hfind
    obtain ⟨-, hell, hinner, hmin⟩ := hfind
    rw [innerSearch_some_iff] at hinner
    obtain ⟨i, hiJ, hji, hb, hspike, himin⟩ := hinner
    have hji' : j = i := by omega
    subst hji'
    refine ⟨by omega, hiJ, hspike, hb, ?_⟩
    intro ell' j' hell' hj' hspike'
    rcases lt_trichotomy ell ell' with hlt | rfl | hgt
    · exact Or.inl hlt
    · right
      refine ⟨rfl, ?_⟩
      by_contra hjj
      exact himin j' (by omega) hspike'
    · exfalso
      have hnone := hmin ell' (by omega) hgt
      rw [innerSearch_none_iff] at hnone
      exact hnone j' hj' hspike'

end VerifyA16

/-! ## Concrete evaluation helpers for `v2` -/

/-- Evaluation rule for `v2` on a concrete positive integer presented as
`2 ^ K * M` with `M` odd. -/
theorem v2_of_decomp (K M : Nat) (hM : M % 2 = 1) :
    v2 ((2 ^ K * M : Nat) : Int) = (K : Int) := by
  have hpos : 0 < 2 ^ K * M :=
    Nat.mul_pos (Nat.pos_pow_of_pos K (by norm_num)) (by omega)
  unfold v2 pyBitLength
  rw [land_neg_eq_ldiff _ hpos, ldiff_two_pow_mul_pred K M hM, Int.natAbs_ofNat, Nat.size_pow]
  push_cast
  ring

theorem v2_four : v2 4 = 2 := by
  have h := v2_of_decomp 2 1 (by norm_num)
  norm_num at h
  exact h

theorem odd_collatz_step_one : odd_collatz_step 1 = (1, 2) := by
  unfold odd_collatz_step
  norm_num [v2_four]
  decide

namespace VerifyA16

theorem find_witness_eval_small : find_witness_for_r 1 0 1 1 = some (0, 0, 2) := by
  unfold find_witness_for_r outerSearch innerSearch
  norm_num [odd_collatz_step_one]

/-- C1 witness: the specification theorem applied at the concrete input
`r = 1, m0 = 0, J = 1, K = 1`, where the search returns `some (0, 0, 2)`. -/
theorem find_witness_for_r_spec_witness :
    find_witness_for_r 1 0 1 1 = some (0, 0, 2) ∧
    ((0:Nat) < 16 ∧ (0:Nat) < 1 ∧ spikeAt 1 0 1 0 0 ∧
      (2:Int) = (odd_collatz_step (xIter 1 0 0 0)).2 ∧
      ∀ ell' j', ell' < 16 → j' < 1 → spikeAt 1 0 1 ell' j' →
        0 < ell' ∨ (0 = ell' ∧ 0 ≤ j')) :=
  ⟨find_witness_eval_small,
    (find_witness_for_r_spec 1 0 1 1).2 0 0 2 find_witness_eval_small⟩

end VerifyA16

/-! ## deterministic_verifier_m16_J16_K4.py -/

namespace DetVerifier

/-- Module constant `M_BITS = 16`. -/
def M_BITS : Nat := 16

/-- Module constant `J = 16`. -/
def J : Nat := 16

/-- Module constant `K = 4`. -/
def K : Int := 4

/-- Inner loop of `main` over `j in range(J)`:
`x_next, b = odd_collatz_step(x)`; on `b >= K` record `(j, b)` and break,
otherwise continue from `x = x_next`.  `fuel` counts remaining iterations. -/
def innerLoop : Nat → Int → Nat → Option (Nat × Int)
  | 0, _, _ => none
  | fuel + 1, x, j =>
    let p := odd_collatz_step x
    if K ≤ p.2 then some (j, p.2)
    else innerLoop fuel p.1 (j + 1)

/-- Outer loop of `main` over `ell in LIFTS = range(16)`, threading `best`
(stored as `(j, ell, b)` exactly as in the source).  A candidate from the
inner loop replaces `best` when `best` is `None` or the candidate's `j` is
smaller; after each lift the loop breaks early if `best` has `j = 0`. -/
def outerLoop (r : Int) : Nat → Nat → Option (Nat × Nat × Int) → Option (Nat × Nat × Int)
  | 0, _, best => best
  | rem + 1, ell, best =>
    let best' :=
      match innerLoop J (r + ((ell <<< M_BITS : Nat) : Int)) 0 with
      | some (j, b) =>
        match best with
        | none => some (j, ell, b)
        | some bp => if j < bp.1 then some (j, ell, b) else some bp
      | none => best
    match best' with
    | some bp => if bp.1 = 0 then some bp else outerLoop r rem (ell + 1) (some bp)
    | none => outerLoop r rem (ell + 1) none

/-- The value of `best` for residue `r` when the per-residue search of `main`
finishes (entered with `best = None`). -/
def bestFor (r : Int) : Option (Nat × Nat × Int) :=
  outerLoop r 16 0 none

theorem innerLoop_eq_innerSearch :
    ∀ (fuel : Nat) (x : Int) (j : Nat),
      innerLoop fuel x j = VerifyA16.innerSearch K fuel x j := by
  intro fuel
  induction fuel with
  | zero => intro x j; rfl
  | succ fuel ih =>
    intro x j
    unfold innerLoop VerifyA16.innerSearch
    by_cases h : K ≤ (odd_collatz_step x).2
    · simp [h]
    · simp [h, ih]

theorem outerLoop_some_isSome (r : Int) :
    ∀ (rem ell : Nat) (bp : Nat × Nat × Int),
      (outerLoop r rem ell (some bp)).isSome := by
  intro rem
  induction rem with
  | zero => intro ell bp; rfl
  | succ rem ih =>
    intro ell bp
    unfold outerLoop
    cases hres : innerLoop J (r + ((ell <<< M_BITS : Nat) : Int)) 0 with
    | none =>
      simp only
      split
      · rfl
      · exact ih (ell + 1) bp
    | some p =>
      obtain ⟨j, b⟩ := p
      by_cases hj : j < bp.1
      · simp only [if_pos hj]
        split
        · rfl
        · exact ih (ell + 1) _
      · simp only [if_neg hj]
        split
        · rfl
        · exact ih (ell + 1) _

theorem outerLoop_none_iff (r : Int) :
    ∀ (rem ell : Nat) (best : Option (Nat × Nat × Int)),
      outerLoop r rem ell best = none ↔
        best = none ∧ ∀ e, ell ≤ e → e < ell + rem →
          innerLoop J (r + ((e <<< M_BITS : Nat) : Int)) 0 = none := by
  intro rem
  induction rem with
  | zero =>
    intro ell best
    simp [outerLoop]
    omega
  | succ rem ih =>
    intro ell best
    unfold outerLoop
    cases hres : innerLoop J (r + ((ell <<< M_BITS : Nat) : Int)) 0 with
    | some p =>
      obtain ⟨j, b⟩ := p
      have hbranch : ∀ (bp : Nat × Nat × Int),
          (if bp.1 = 0 then some bp else outerLoop r rem (ell + 1) (some bp)) ≠ none := by
        intro bp
        split
        · simp
        · intro hcontra
          have := outerLoop_some_isSome r rem (ell + 1) bp
          rw [hcontra] at this
          exact absurd this (by simp)
      cases best with
      | none =>
        simp only
        constructor
        · intro hcontra
          exact absurd hcontra (hbranch (j, ell, b))
        · rintro ⟨-, hall⟩
          exact absurd (hall ell (by omega) (by omega)) (by simp [hres])
      | some bp =>
        by_cases hj : j < bp.1
        · simp only [if_pos hj]
          constructor
          · intro hcontra
            exact absurd hcontra (hbranch (j, ell, b))
          · rintro ⟨hcontra, -⟩
            exact absurd hcontra (by simp)
        · simp only [if_neg hj]
          constructor
          · intro hcontra
            exact absurd hcontra (hbranch bp)
          · rintro ⟨hcontra, -⟩
            exact absurd hcontra (by simp)
    | none =>
      cases best with
      | none =>
        simp only
        rw [ih]
        constructor
        · rintro ⟨-, hall⟩
          refine ⟨by simp, ?_⟩
          intro e he1 he2
          rcases Nat.eq_or_lt_of_le he1 with rfl | hlt
          · exact hres
          · exact hall e (by omega) (by omega)
        · rintro ⟨-, hall⟩
          exact ⟨by simp, fun e he1 he2 => hall e (by omega) (by omega)⟩
      | some bp =>
        have hbranch : (if bp.1 = 0 then some bp else outerLoop r rem (ell + 1) (some bp)) ≠ none := by
          split
          · simp
          · intro hcontra
            have := outerLoop_some_isSome r rem (ell + 1) bp
            rw [hcontra] at this
            exact absurd this (by simp)
        simp only
        constructor
        · intro hcontra
          exact absurd hcontra hbranch
        · rintro ⟨hcontra, -⟩
          exact absurd hcontra (by simp)

end DetVerifier

namespace VerifyA16

/-- Python's `range(1, MOD, 2)` for even `MOD`: the odd residues
`1, 3, ..., MOD-1` in increasing order (the residue loop of both `main`s). -/
def oddRange (MOD : Nat) : List Int :=
  (List.range (MOD / 2)).map (fun i : Nat => 2 * (i : Int) + 1)

/-- The survivor list built by `verify_A16.main`: the odd residues `r`
modulo `2^m0` for which `find_witness_for_r` returns `None`. -/
def survivors (m0 J : Nat) (K : Int) : List Int :=
  (oddRange (2 ^ m0)).filter (fun r => (find_witness_for_r r m0 J K).isNone)

/-- The return value of `verify_A16.main`
(`return 0 if len(survivors) == 0 else 2`), which the script turns into the
process exit status via `raise SystemExit(main())`. -/
def main_exit (m0 J : Nat) (K : Int) : Nat :=
  if (survivors m0 J K).length = 0 then 0 else 2

end VerifyA16

namespace DetVerifier

/-- The first surviving residue found by the scan of
`deterministic_verifier_m16_J16_K4.main` over `range(1, M, 2)` (the loop
prints FAILURE and returns at the first residue whose `best` is `None`). -/
def first_survivor : Option Int :=
  (VerifyA16.oddRange (2 ^ M_BITS)).find? (fun r => (bestFor r).isNone)

/-- Exit status of `deterministic_verifier_m16_J16_K4`: `main() -> None`
returns `None` both on the survivor path (early `return`) and on the success
path (falling off the end), and the script calls `main()` without
`SystemExit`, so the process exit status is `0` in both outcomes. -/
def main_exit (survivor_found : Bool) : Nat :=
  if survivor_found then 0 else 0

end DetVerifier

/-- C9. The two witness-search variants agree as one canonical component at
the common parameters `(m0, J, K, lifts) = (16, 16, 4, 0..15)`: for every
residue `r`, `verify_A16.find_witness_for_r` returns `None` exactly when the
per-residue search of the deterministic verifier leaves `best = None`; hence
both scripts determine the same survivor set and the same emptiness verdict. -/
theorem witness_search_equivalence :
    (∀ r : Int,
      VerifyA16.find_witness_for_r r 16 16 4 = none ↔ DetVerifier.bestFor r = none) ∧
    VerifyA16.survivors 16 16 4 =
      (VerifyA16.oddRange (2 ^ 16)).filter (fun r => (DetVerifier.bestFor r).isNone) ∧
    (VerifyA16.survivors 16 16 4 = [] ↔ DetVerifier.first_survivor = none) := by
  have hpt : ∀ r : Int,
      VerifyA16.find_witness_for_r r 16 16 4 = none ↔ DetVerifier.bestFor r = none := by
    intro r
    unfold VerifyA16.find_witness_for_r DetVerifier.bestFor
    rw [VerifyA16.outerSearch_none_iff, DetVerifier.outerLoop_none_iff]
    simp only [DetVerifier.J, DetVerifier.K, DetVerifier.M_BITS,
      DetVerifier.innerLoop_eq_innerSearch, true_and]
  have hfilter : VerifyA16.survivors 16 16 4 =
      (VerifyA16.oddRange (2 ^ 16)).filter (fun r => (DetVerifier.bestFor r).isNone) := by
    unfold VerifyA16.survivors
    apply List.filter_congr
    intro r _
    have h := hpt r
    by_cases hc : VerifyA16.find_witness_for_r r 16 16 4 = none
    · rw [hc, h.mp hc]
    · have h2 : DetVerifier.bestFor r ≠ none := fun hcc => hc (h.mpr hcc)
      cases hfind : VerifyA16.find_witness_for_r r 16 16 4 with
      | none => exact absurd hfind hc
      | some v =>
        cases hbest : DetVerifier.bestFor r with
        | none => exact absurd hbest h2
        | some w => rfl
  refine ⟨hpt, hfilter, ?_⟩
  rw [hfilter]
  unfold DetVerifier.first_survivor
  simp only [DetVerifier.M_BITS]
  rw [List.filter_eq_nil_iff, List.find?_eq_none]

/-- C8 counterexample: the deterministic m=16 verifier does **not** map the
two outcomes to distinct exit statuses — `main` returns `None` on both the
survivor path and the success path, so the process exits with status 0 in
both cases. -/
theorem det_exit_status_constant :
    DetVerifier.main_exit true = 0 ∧ DetVerifier.main_exit false = 0 ∧
      DetVerifier.main_exit true = DetVerifier.main_exit false :=
  ⟨rfl, rfl, rfl⟩

/-- C8 amended: `verify_A16.main` returns 0 exactly when the survivor list is
empty and the distinct status 2 exactly when it is non-empty, while the
deterministic m=16 verifier exits with status 0 regardless of the outcome
(it signals failure only through printed output and an early return). -/
theorem exit_status_contract_amended :
    (∀ (m0 J : Nat) (K : Int),
      (VerifyA16.main_exit m0 J K = 0 ↔ VerifyA16.survivors m0 J K = []) ∧
      (VerifyA16.main_exit m0 J K = 2 ↔ VerifyA16.survivors m0 J K ≠ [])) ∧
    ∀ b, DetVerifier.main_exit b = 0 := by
  constructor
  · intro m0 J K
    unfold VerifyA16.main_exit
    by_cases h : (VerifyA16.survivors m0 J K).length = 0
    · rw [if_pos h]
      simp [List.length_eq_zero.mp h]
    · rw [if_neg h]
      have hne : VerifyA16.survivors m0 J K ≠ [] := by
        intro hc; rw [hc] at h; exact h rfl
      simp [hne]
  · intro b
    cases b <;> rfl

/-! ## u_cycle_verifier_m16.py: survivor pruning (worklist loop)

The pruning loop of `main` (seed all zero-out-degree vertices, repeatedly pop
a vertex, mark it dead, decrement the live out-degree of each of its
predecessors, enqueue a predecessor when its out-degree reaches 0) operates on
`out_adj` / `rev_adj` / `alive` / `outdeg` data only.  By construction every
vertex of the built graph has at most one outgoing edge (claim C5), so the
graph is a functional graph `succ : Nat → Option Nat` on vertex indices
`0..V-1`; `out_adj[i]` is `(succ i).toList` and `rev_adj[j]` is the increasing
list of predecessors of `j`.  Python's `bytearray`/list-of-int state arrays
are modelled as functions with pointwise update. -/

namespace Prune

structure PState where
  alive : Nat → Bool
  outdeg : Nat → Int
  queue : List Nat
  removed : Nat

/-- Body of `for p in rev_adj[x]: ...`: skip dead predecessors, decrement the
live out-degree of live ones, append a predecessor to the worklist when its
out-degree reaches 0. -/
def processPreds (alive : Nat → Bool) : List Nat → (Nat → Int) → List Nat → (Nat → Int) × List Nat
  | [], outdeg, queue => (outdeg, queue)
  | p :: ps, outdeg, queue =>
    if alive p = false then processPreds alive ps outdeg queue
    else
      let d := outdeg p - 1
      let outdeg' := Function.update outdeg p d
      if d = 0 then processPreds alive ps outdeg' (queue ++ [p])
      else processPreds alive ps outdeg' queue

/-- One iteration of `while qd:`: pop `x`; if `alive[x] == 0` continue;
otherwise mark `x` dead, count the removal, and propagate the out-degree
decrements to the predecessors of `x`. -/
def pruneStep (revAdj : Nat → List Nat) (st : PState) : PState :=
  match st.queue with
  | [] => st
  | x :: rest =>
    if st.alive x = false then { st with queue := rest }
    else
      let alive' := Function.update st.alive x false
      let od_q := processPreds alive' (revAdj x) st.outdeg rest
      { alive := alive', outdeg := od_q.1, queue := od_q.2, removed := st.removed + 1 }

/-- The `while qd:` loop, with an explicit iteration budget (the loop is
proved below to drain the queue within `3 * n` iterations). -/
def pruneLoop (revAdj : Nat → List Nat) : Nat → PState → PState
  | 0, st => st
  | fuel + 1, st =>
    match st.queue with
    | [] => st
    | _ :: _ => pruneLoop revAdj fuel (pruneStep revAdj st)

/-- Reverse adjacency of the functional graph: `rev_adj[j]` collects, in
increasing order, every vertex `i < n` whose single outgoing edge targets
`j` — exactly what the edge-construction loop's `rev_adj[j].append(i)`
accumulates. -/
def revAdjOf (n : Nat) (succ : Nat → Option Nat) (j : Nat) : List Nat :=
  (List.range n).filter (fun i => succ i == some j)

/-- Initial pruning state (`alive` all ones over the `n` vertices,
`outdeg[i] = len(out_adj[i])`, worklist seeded with every vertex of
out-degree 0, `removed = 0`). -/
def initState (n : Nat) (succ : Nat → Option Nat) : PState :=
  { alive := fun i => decide (i < n)
    outdeg := fun i => ((succ i).toList.length : Int)
    queue := (List.range n).filter (fun i => (succ i).toList.length == 0)
    removed := 0 }

/-- The pruning loop run to completion on the functional graph
`succ` over vertices `0..n-1`. -/
def pruneRun (n : Nat) (succ : Nat → Option Nat) : PState :=
  pruneLoop (revAdjOf n succ) (3 * n) (initState n succ)

/-- Number of vertices still alive. -/
def aliveCount (n : Nat) (st : PState) : Nat :=
  ∑ i ∈ Finset.range n, (if st.alive i then 1 else 0)

/-! ### Termination potential -/

/-- Potential: queue length plus, for each live vertex, one plus its clipped
out-degree.  Every loop iteration strictly decreases it. -/
def phi (n : Nat) (st : PState) : Nat :=
  st.queue.length + ∑ i ∈ Finset.range n, (if st.alive i then 1 + (st.outdeg i).toNat else 0)

theorem processPreds_phi (n : Nat) (alive : Nat → Bool)
    (hB : ∀ i, alive i = true → i < n) :
    ∀ (ps : List Nat) (od : Nat → Int) (q : List Nat),
      (processPreds alive ps od q).2.length +
        ∑ i ∈ Finset.range n, (if alive i then 1 + ((processPreds alive ps od q).1 i).toNat else 0) ≤
      q.length + ∑ i ∈ Finset.range n, (if alive i then 1 + (od i).toNat else 0) := by
  intro ps
  induction ps with
  | nil => intro od q; simp [processPreds]
  | cons p ps ih =>
    intro od q
    unfold processPreds
    by_cases hp : alive p = false
    · rw [if_pos hp]; exact ih od q
    · rw [if_neg hp]
      have hpT : alive p = true := by revert hp; cases alive p <;> simp
      have hpn : p < n := hB p hpT
      have hmem : p ∈ Finset.range n := Finset.mem_range.mpr hpn
      -- effect of the update on the potential sum, in addition form
      have hsum : ∀ v : Int,
          (∑ i ∈ Finset.range n, (if alive i then 1 + ((Function.update od p v) i).toNat else 0)) +
            (1 + (od p).toNat) =
          (∑ i ∈ Finset.range n, (if alive i then 1 + (od i).toNat else 0)) + (1 + v.toNat) := by
        intro v
        have h1 := Finset.sum_erase_add (Finset.range n)
          (fun i => if alive i then 1 + ((Function.update od p v) i).toNat else 0) hmem
        have h2 := Finset.sum_erase_add (Finset.range n)
          (fun i => if alive i then 1 + (od i).toNat else 0) hmem
        have hOther : ∑ i ∈ (Finset.range n).erase p,
            (if alive i then 1 + ((Function.update od p v) i).toNat else 0) =
            ∑ i ∈ (Finset.range n).erase p, (if alive i then 1 + (od i).toNat else 0) := by
          apply Finset.sum_congr rfl
          intro i hi
          rw [Function.update_noteq (Finset.ne_of_mem_erase hi)]
        rw [← h1, ← h2, hOther]
        simp only [Function.update_same, hpT, if_true]
        omega
      by_cases hd : od p - 1 = 0
      · rw [if_pos hd]
        have hrec := ih (Function.update od p (od p - 1)) (q ++ [p])
        have hkey := hsum (od p - 1)
        simp only [List.length_append, List.length_singleton] at hrec
        omega
      · rw [if_neg hd]
        have hrec := ih (Function.update od p (od p - 1)) q
        have hkey := hsum (od p - 1)
        have htn : (od p - 1).toNat ≤ (od p).toNat := by omega
        omega

end Prune

namespace Prune

theorem pruneStep_eq_nil (revAdj : Nat → List Nat) (st : PState) (h : st.queue = []) :
    pruneStep revAdj st = st := by
  unfold pruneStep
  rw [h]

theorem pruneStep_eq_cons (revAdj : Nat → List Nat) (st : PState) (x : Nat) (rest : List Nat)
    (h : st.queue = x :: rest) :
    pruneStep revAdj st =
      if st.alive x = false then { st with queue := rest }
      else
        { alive := Function.update st.alive x false
          outdeg := (processPreds (Function.update st.alive x false) (revAdj x) st.outdeg rest).1
          queue := (processPreds (Function.update st.alive x false) (revAdj x) st.outdeg rest).2
          removed := st.removed + 1 } := by
  unfold pruneStep
  rw [h]

theorem pruneLoop_eq_succ_nil (revAdj : Nat → List Nat) (fuel : Nat) (st : PState)
    (h : st.queue = []) : pruneLoop revAdj (fuel + 1) st = st := by
  unfold pruneLoop
  rw [h]

theorem pruneLoop_eq_succ_cons (revAdj : Nat → List Nat) (fuel : Nat) (st : PState)
    (x : Nat) (rest : List Nat) (h : st.queue = x :: rest) :
    pruneLoop revAdj (fuel + 1) st = pruneLoop revAdj fuel (pruneStep revAdj st) := by
  conv_lhs => unfold pruneLoop
  rw [h]

theorem pruneStep_alive_mono (revAdj : Nat → List Nat) (st : PState) (i : Nat)
    (h : (pruneStep revAdj st).alive i = true) : st.alive i = true := by
  cases hq : st.queue with
  | nil => rw [pruneStep_eq_nil revAdj st hq] at h; exact h
  | cons x rest =>
    rw [pruneStep_eq_cons revAdj st x rest hq] at h
    by_cases hx : st.alive x = false
    · rw [if_pos hx] at h; exact h
    · rw [if_neg hx] at h
      simp only at h
      by_cases hxi : i = x
      · subst hxi
        rw [Function.update_same] at h
        exact absurd h (by simp)
      · rw [Function.update_noteq hxi] at h
        exact h

theorem pruneStep_phi (n : Nat) (revAdj : Nat → List Nat) (st : PState)
    (hB : ∀ i, st.alive i = true → i < n)
    (hne : st.queue ≠ []) :
    phi n (pruneStep revAdj st) + 1 ≤ phi n st := by
  cases hq : st.queue with
  | nil => exact absurd hq hne
  | cons x rest =>
    rw [pruneStep_eq_cons revAdj st x rest hq]
    by_cases hx : st.alive x = false
    · rw [if_pos hx]
      unfold phi
      simp only [hq, List.length_cons]
      omega
    · rw [if_neg hx]
      have hxT : st.alive x = true := by revert hx; cases st.alive x <;> simp
      have hxn : x < n := hB x hxT
      have hmem : x ∈ Finset.range n := Finset.mem_range.mpr hxn
      have hB' : ∀ i, (Function.update st.alive x false) i = true → i < n := by
        intro i hi
        by_cases hix : i = x
        · subst hix; rw [Function.update_same] at hi; exact absurd hi (by simp)
        · rw [Function.update_noteq hix] at hi; exact hB i hi
      have hPP := processPreds_phi n (Function.update st.alive x false) hB'
        (revAdj x) st.outdeg rest
      -- the sum over the updated alive array loses exactly the term at x
      have hS : (∑ i ∈ Finset.range n,
            (if (Function.update st.alive x false) i then 1 + (st.outdeg i).toNat else 0)) +
            (1 + (st.outdeg x).toNat) =
          ∑ i ∈ Finset.range n, (if st.alive i then 1 + (st.outdeg i).toNat else 0) := by
        have h1 := Finset.sum_erase_add (Finset.range n)
          (fun i => if (Function.update st.alive x false) i then 1 + (st.outdeg i).toNat else 0) hmem
        have h2 := Finset.sum_erase_add (Finset.range n)
          (fun i => if st.alive i then 1 + (st.outdeg i).toNat else 0) hmem
        have hOther : ∑ i ∈ (Finset.range n).erase x,
            (if (Function.update st.alive x false) i then 1 + (st.outdeg i).toNat else 0) =
            ∑ i ∈ (Finset.range n).erase x, (if st.alive i then 1 + (st.outdeg i).toNat else 0) := by
          apply Finset.sum_congr rfl
          intro i hi
          rw [Function.update_noteq (Finset.ne_of_mem_erase hi)]
        rw [← h1, ← h2, hOther]
        simp only [Function.update_same, hxT, if_true]
        simp
      unfold phi at hPP ⊢
      simp only [hq, List.length_cons]
      omega

theorem pruneLoop_drains (n : Nat) (revAdj : Nat → List Nat) :
    ∀ (fuel : Nat) (st : PState),
      (∀ i, st.alive i = true → i < n) →
      phi n st ≤ fuel →
      (pruneLoop revAdj fuel st).queue = [] := by
  intro fuel
  induction fuel with
  | zero =>
    intro st hB hphi
    unfold pruneLoop
    cases hq : st.queue with
    | nil => rfl
    | cons x rest =>
      exfalso
      unfold phi at hphi
      rw [hq] at hphi
      simp at hphi
  | succ fuel ih =>
    intro st hB hphi
    cases hq : st.queue with
    | nil => rw [pruneLoop_eq_succ_nil revAdj fuel st hq]; exact hq
    | cons x rest =>
      rw [pruneLoop_eq_succ_cons revAdj fuel st x rest hq]
      apply ih
      · intro i hi
        exact hB i (pruneStep_alive_mono revAdj st i hi)
      · have := pruneStep_phi n revAdj st hB (by rw [hq]; simp)
        omega

theorem initState_alive_bound (n : Nat) (succ : Nat → Option Nat) :
    ∀ i, (initState n succ).alive i = true → i < n := by
  intro i hi
  unfold initState at hi
  simpa using hi

theorem initState_phi (n : Nat) (succ : Nat → Option Nat) :
    phi n (initState n succ) ≤ 3 * n := by
  unfold phi initState
  simp only
  have hq : ((List.range n).filter (fun i => (succ i).toList.length == 0)).length ≤ n := by
    calc ((List.range n).filter (fun i => (succ i).toList.length == 0)).length
        ≤ (List.range n).length := List.length_filter_le _ _
      _ = n := List.length_range n
  have hs : (∑ i ∈ Finset.range n,
      (if decide (i < n) then 1 + (((succ i).toList.length : Int)).toNat else 0)) ≤ 2 * n := by
    calc (∑ i ∈ Finset.range n,
          (if decide (i < n) then 1 + (((succ i).toList.length : Int)).toNat else 0))
        ≤ ∑ _i ∈ Finset.range n, 2 := by
          apply Finset.sum_le_sum
          intro i hi
          split
          · have : (succ i).toList.length ≤ 1 := by cases succ i <;> simp
            omega
          · omega
      _ = 2 * n := by rw [Finset.sum_const, Finset.card_range, smul_eq_mul]; omega
  omega

/-- After `3 * n` iterations the worklist is drained: the `while qd:` loop of
the source terminates. -/
theorem pruneRun_queue_empty (n : Nat) (succ : Nat → Option Nat) :
    (pruneRun n succ).queue = [] :=
  pruneLoop_drains n (revAdjOf n succ) (3 * n) (initState n succ)
    (initState_alive_bound n succ) (initState_phi n succ)

end Prune

namespace Prune

/-- Whether vertex `p` currently has an out-edge to a live vertex. -/
def hasLiveSuccA (succ : Nat → Option Nat) (alive : Nat → Bool) (p : Nat) : Bool :=
  match succ p with
  | none => false
  | some j => alive j

theorem hasLiveSuccA_update_mono (succ : Nat → Option Nat) (alive : Nat → Bool)
    (x p : Nat) (h : hasLiveSuccA succ (Function.update alive x false) p = true) :
    hasLiveSuccA succ alive p = true := by
  cases hsp : succ p with
  | none => simp only [hasLiveSuccA, hsp] at h; exact absurd h (by simp)
  | some j =>
    simp only [hasLiveSuccA, hsp] at h ⊢
    by_cases hjx : j = x
    · subst hjx; rw [Function.update_same] at h; exact absurd h (by simp)
    · rw [Function.update_noteq hjx] at h; exact h

theorem mem_revAdjOf (n : Nat) (succ : Nat → Option Nat) (j p : Nat) :
    p ∈ revAdjOf n succ j ↔ p < n ∧ succ p = some j := by
  unfold revAdjOf
  simp [List.mem_filter, List.mem_range]

theorem revAdjOf_nodup (n : Nat) (succ : Nat → Option Nat) (j : Nat) :
    (revAdjOf n succ j).Nodup :=
  List.Nodup.filter _ (List.nodup_range n)

theorem processPreds_outdeg (alive : Nat → Bool) :
    ∀ (ps : List Nat) (od : Nat → Int) (q : List Nat) (p : Nat), ps.Nodup →
      (processPreds alive ps od q).1 p =
        if alive p = true ∧ p ∈ ps then od p - 1 else od p := by
  intro ps
  induction ps with
  | nil => intro od q p _; simp [processPreds]
  | cons p0 ps ih =>
    intro od q p hnd
    obtain ⟨hp0, hnd'⟩ := List.nodup_cons.mp hnd
    unfold processPreds
    by_cases h0 : alive p0 = false
    · rw [if_pos h0, ih _ _ p hnd']
      by_cases hap : alive p = true
      · by_cases hpp : p = p0
        · subst hpp; rw [h0] at hap; exact absurd hap (by simp)
        · simp [hap, hpp, List.mem_cons]
      · simp [hap]
    · rw [if_neg h0]
      have haT : alive p0 = true := by revert h0; cases alive p0 <;> simp
      by_cases hd : od p0 - 1 = 0
      · rw [if_pos hd, ih _ _ p hnd']
        by_cases hpp : p = p0
        · subst hpp
          simp [hp0, haT, Function.update_same, List.mem_cons]
        · rw [Function.update_noteq hpp]
          by_cases hap : alive p = true
          · simp [hap, hpp, List.mem_cons]
          · simp [hap]
      · rw [if_neg hd, ih _ _ p hnd']
        by_cases hpp : p = p0
        · subst hpp
          simp [hp0, haT, Function.update_same, List.mem_cons]
        · rw [Function.update_noteq hpp]
          by_cases hap : alive p = true
          · simp [hap, hpp, List.mem_cons]
          · simp [hap]

theorem processPreds_queue_mono (alive : Nat → Bool) :
    ∀ (ps : List Nat) (od : Nat → Int) (q : List Nat) (p' : Nat),
      p' ∈ q → p' ∈ (processPreds alive ps od q).2 := by
  intro ps
  induction ps with
  | nil => intro od q p' h; simpa [processPreds] using h
  | cons p0 ps ih =>
    intro od q p' h
    unfold processPreds
    by_cases h0 : alive p0 = false
    · rw [if_pos h0]; exact ih _ _ _ h
    · rw [if_neg h0]
      by_cases hd : od p0 - 1 = 0
      · rw [if_pos hd]
        exact ih _ _ _ (List.mem_append_left _ h)
      · rw [if_neg hd]
        exact ih _ _ _ h

theorem processPreds_queue_src (alive : Nat → Bool) :
    ∀ (ps : List Nat) (od : Nat → Int) (q : List Nat) (p' : Nat),
      p' ∈ (processPreds alive ps od q).2 → p' ∈ q ∨ p' ∈ ps := by
  intro ps
  induction ps with
  | nil => intro od q p' h; left; simpa [processPreds] using h
  | cons p0 ps ih =>
    intro od q p' h
    unfold processPreds at h
    by_cases h0 : alive p0 = false
    · rw [if_pos h0] at h
      rcases ih _ _ _ h with h1 | h1
      · exact Or.inl h1
      · exact Or.inr (List.mem_cons_of_mem _ h1)
    · rw [if_neg h0] at h
      by_cases hd : od p0 - 1 = 0
      · rw [if_pos hd] at h
        rcases ih _ _ _ h with h1 | h1
        · rcases List.mem_append.mp h1 with h2 | h2
          · exact Or.inl h2
          · right
            have : p' = p0 := by simpa using h2
            subst this
            exact List.mem_cons_self _ _
        · exact Or.inr (List.mem_cons_of_mem _ h1)
      · rw [if_neg hd] at h
        rcases ih _ _ _ h with h1 | h1
        · exact Or.inl h1
        · exact Or.inr (List.mem_cons_of_mem _ h1)

theorem processPreds_enq (alive : Nat → Bool) :
    ∀ (ps : List Nat) (od : Nat → Int) (q : List Nat) (p : Nat), ps.Nodup →
      alive p = true → p ∈ ps → od p = 1 →
      p ∈ (processPreds alive ps od q).2 := by
  intro ps
  induction ps with
  | nil => intro od q p _ _ hmem _; exact absurd hmem (by simp)
  | cons p0 ps ih =>
    intro od q p hnd hap hmem hod
    obtain ⟨hp0, hnd'⟩ := List.nodup_cons.mp hnd
    unfold processPreds
    by_cases h0 : alive p0 = false
    · rw [if_pos h0]
      have hpp : p ≠ p0 := by
        intro hc; subst hc; rw [h0] at hap; exact absurd hap (by simp)
      have : p ∈ ps := by
        rcases List.mem_cons.mp hmem with h | h
        · exact absurd h hpp
        · exact h
      exact ih _ _ _ hnd' hap this hod
    · rw [if_neg h0]
      by_cases hpp : p = p0
      · subst hpp
        have hd : od p - 1 = 0 := by omega
        rw [if_pos hd]
        exact processPreds_queue_mono alive _ _ _ _ (List.mem_append_right _ (by simp))
      · have hmem' : p ∈ ps := by
          rcases List.mem_cons.mp hmem with h | h
          · exact absurd h hpp
          · exact h
        have hod' : Function.update od p0 (od p0 - 1) p = 1 := by
          rw [Function.update_noteq hpp]; exact hod
        by_cases hd : od p0 - 1 = 0
        · rw [if_pos hd]
          exact ih _ _ _ hnd' hap hmem' hod'
        · rw [if_neg hd]
          exact ih _ _ _ hnd' hap hmem' hod'

theorem sum_alive_update_false (n : Nat) (alive : Nat → Bool) (x : Nat)
    (hx : x < n) (hxT : alive x = true) :
    (∑ i ∈ Finset.range n, (if (Function.update alive x false) i then 1 else 0)) + 1 =
    ∑ i ∈ Finset.range n, (if alive i then 1 else 0) := by
  have hmem : x ∈ Finset.range n := Finset.mem_range.mpr hx
  have h1 := Finset.sum_erase_add (Finset.range n)
    (fun i => if (Function.update alive x false) i then 1 else 0) hmem
  have h2 := Finset.sum_erase_add (Finset.range n)
    (fun i => if alive i then 1 else 0) hmem
  have hOther : ∑ i ∈ (Finset.range n).erase x,
      (if (Function.update alive x false) i then 1 else 0) =
      ∑ i ∈ (Finset.range n).erase x, (if alive i then 1 else 0) := by
    apply Finset.sum_congr rfl
    intro i hi
    rw [Function.update_noteq (Finset.ne_of_mem_erase hi)]
  rw [← h1, ← h2, hOther]
  simp [hxT]

end Prune

namespace Prune

/-- Loop invariant of the pruning worklist algorithm on the functional graph
`succ` over `0..n-1`:
live vertices are in range; a live vertex's out-degree counter equals the
number (0 or 1) of its live successors; a live vertex whose counter reached 0
is on the worklist; worklist entries are in range and have no live successor;
`removed` plus the number of live vertices is `n`. -/
structure Inv (n : Nat) (succ : Nat → Option Nat) (st : PState) : Prop where
  aliveB : ∀ i, st.alive i = true → i < n
  degA : ∀ p, p < n → st.alive p = true →
    st.outdeg p = (if hasLiveSuccA succ st.alive p = true then 1 else 0)
  enq : ∀ p, p < n → st.alive p = true → st.outdeg p = 0 → p ∈ st.queue
  qB : ∀ p, p ∈ st.queue → p < n
  qNoLive : ∀ p, p ∈ st.queue → hasLiveSuccA succ st.alive p = false
  count : st.removed + aliveCount n st = n

theorem inv_init (n : Nat) (succ : Nat → Option Nat)
    (hsucc : ∀ i j, succ i = some j → j < n) :
    Inv n succ (initState n succ) := by
  constructor
  · intro i hi
    simpa [initState] using hi
  · intro p hp _
    show ((succ p).toList.length : Int) = _
    cases hsp : succ p with
    | none => simp [hasLiveSuccA, hsp]
    | some j =>
      have hj : j < n := hsucc p j hsp
      simp [hasLiveSuccA, hsp, initState, hj]
  · intro p hp _ hod
    have hlen : (succ p).toList.length = 0 := by
      have : ((succ p).toList.length : Int) = 0 := hod
      exact_mod_cast this
    show p ∈ (List.range n).filter _
    rw [List.mem_filter]
    exact ⟨List.mem_range.mpr hp, by simp [hlen]⟩
  · intro p hp
    have := (List.mem_filter.mp hp).1
    exact List.mem_range.mp this
  · intro p hp
    have h2 := (List.mem_filter.mp hp).2
    have hlen : (succ p).toList.length = 0 := by simpa using h2
    cases hsp : succ p with
    | none => simp [hasLiveSuccA, hsp]
    | some j => rw [hsp] at hlen; simp at hlen
  · show 0 + aliveCount n (initState n succ) = n
    unfold aliveCount initState
    simp only [Nat.zero_add]
    calc (∑ i ∈ Finset.range n, if decide (i < n) then 1 else 0)
        = ∑ i ∈ Finset.range n, 1 := by
          apply Finset.sum_congr rfl
          intro i hi
          simp [Finset.mem_range.mp hi]
      _ = n := by simp

theorem inv_step (n : Nat) (succ : Nat → Option Nat)
    (_hsucc : ∀ i j, succ i = some j → j < n) (st : PState)
    (hInv : Inv n succ st) :
    Inv n succ (pruneStep (revAdjOf n succ) st) := by
  cases hq : st.queue with
  | nil => rw [pruneStep_eq_nil _ st hq]; exact hInv
  | cons x rest =>
    rw [pruneStep_eq_cons _ st x rest hq]
    by_cases hx : st.alive x = false
    · rw [if_pos hx]
      constructor
      · exact hInv.aliveB
      · exact hInv.degA
      · intro p hp hap hod
        have hmem := hInv.enq p hp hap hod
        rw [hq] at hmem
        rcases List.mem_cons.mp hmem with rfl | h
        · rw [hx] at hap; exact absurd hap (by simp)
        · exact h
      · intro p hp
        exact hInv.qB p (by rw [hq]; exact List.mem_cons_of_mem _ hp)
      · intro p hp
        exact hInv.qNoLive p (by rw [hq]; exact List.mem_cons_of_mem _ hp)
      · exact hInv.count
    · rw [if_neg hx]
      have hxT : st.alive x = true := by revert hx; cases st.alive x <;> simp
      have hxn : x < n := hInv.aliveB x hxT
      have hxq : x ∈ st.queue := by rw [hq]; exact List.mem_cons_self _ _
      have hnd := revAdjOf_nodup n succ x
      have hPPod := fun p => processPreds_outdeg (Function.update st.alive x false)
        (revAdjOf n succ x) st.outdeg rest p hnd
      have haliveup : ∀ p, p ≠ x →
          (Function.update st.alive x false) p = st.alive p := fun p hp =>
        Function.update_noteq hp _ _
      constructor
      · -- aliveB
        intro i hi
        simp only at hi
        by_cases hix : i = x
        · subst hix; rw [Function.update_same] at hi; exact absurd hi (by simp)
        · rw [haliveup i hix] at hi; exact hInv.aliveB i hi
      · -- degA
        intro p hp hap
        simp only at hap ⊢
        have hpx : p ≠ x := by
          intro hc; subst hc; rw [Function.update_same] at hap; exact absurd hap (by simp)
        have hapO : st.alive p = true := by rw [← haliveup p hpx]; exact hap
        rw [hPPod p]
        by_cases hmem : p ∈ revAdjOf n succ x
        · obtain ⟨-, hspx⟩ := (mem_revAdjOf n succ x p).mp hmem
          rw [if_pos ⟨hap, hmem⟩]
          have hpre := hInv.degA p hp hapO
          have hlsPre : hasLiveSuccA succ st.alive p = true := by
            simp [hasLiveSuccA, hspx, hxT]
          have hlsPost : hasLiveSuccA succ (Function.update st.alive x false) p = false := by
            simp [hasLiveSuccA, hspx, Function.update_same]
          rw [hlsPost]
          rw [hpre, if_pos hlsPre]
          simp
        · rw [if_neg (by intro hc; exact hmem hc.2)]
          have hpre := hInv.degA p hp hapO
          have hls : hasLiveSuccA succ (Function.update st.alive x false) p =
              hasLiveSuccA succ st.alive p := by
            cases hsp : succ p with
            | none => simp [hasLiveSuccA, hsp]
            | some j =>
              have hjx : j ≠ x := by
                intro hc
                rw [hc] at hsp
                exact hmem ((mem_revAdjOf n succ x p).mpr ⟨hp, hsp⟩)
              simp only [hasLiveSuccA, hsp]
              rw [haliveup j hjx]
          rw [hls]
          exact hpre
      · -- enq
        intro p hp hap hod
        simp only at hap hod ⊢
        have hpx : p ≠ x := by
          intro hc; subst hc; rw [Function.update_same] at hap; exact absurd hap (by simp)
        have hapO : st.alive p = true := by rw [← haliveup p hpx]; exact hap
        rw [hPPod p] at hod
        by_cases hmem : p ∈ revAdjOf n succ x
        · rw [if_pos ⟨hap, hmem⟩] at hod
          have hod1 : st.outdeg p = 1 := by omega
          exact processPreds_enq _ _ _ _ _ hnd hap hmem hod1
        · rw [if_neg (by intro hc; exact hmem hc.2)] at hod
          have hmemq := hInv.enq p hp hapO hod
          rw [hq] at hmemq
          rcases List.mem_cons.mp hmemq with rfl | h
          · exact absurd rfl hpx
          · exact processPreds_queue_mono _ _ _ _ _ h
      · -- qB
        intro p hp
        simp only at hp
        rcases processPreds_queue_src _ _ _ _ _ hp with h | h
        · exact hInv.qB p (by rw [hq]; exact List.mem_cons_of_mem _ h)
        · exact ((mem_revAdjOf n succ x p).mp h).1
      · -- qNoLive
        intro p hp
        simp only at hp ⊢
        rcases processPreds_queue_src _ _ _ _ _ hp with h | h
        · have hpre := hInv.qNoLive p (by rw [hq]; exact List.mem_cons_of_mem _ h)
          cases hpost : hasLiveSuccA succ (Function.update st.alive x false) p
          · rfl
          · rw [hasLiveSuccA_update_mono succ st.alive x p hpost] at hpre
            exact absurd hpre (by simp)
        · obtain ⟨-, hspx⟩ := (mem_revAdjOf n succ x p).mp h
          simp [hasLiveSuccA, hspx, Function.update_same]
      · -- count
        show st.removed + 1 + aliveCount n _ = n
        have hcnt := sum_alive_update_false n st.alive x hxn hxT
        have hpre := hInv.count
        unfold aliveCount at hpre ⊢
        simp only at *
        omega

theorem inv_loop (n : Nat) (succ : Nat → Option Nat)
    (hsucc : ∀ i j, succ i = some j → j < n) :
    ∀ (fuel : Nat) (st : PState), Inv n succ st →
      Inv n succ (pruneLoop (revAdjOf n succ) fuel st) := by
  intro fuel
  induction fuel with
  | zero => intro st h; exact h
  | succ fuel ih =>
    intro st h
    cases hq : st.queue with
    | nil => rw [pruneLoop_eq_succ_nil _ fuel st hq]; exact h
    | cons x rest =>
      rw [pruneLoop_eq_succ_cons _ fuel st x rest hq]
      exact ih _ (inv_step n succ hsucc st h)

theorem pruneRun_inv (n : Nat) (succ : Nat → Option Nat)
    (hsucc : ∀ i j, succ i = some j → j < n) :
    Inv n succ (pruneRun n succ) :=
  inv_loop n succ hsucc (3 * n) _ (inv_init n succ hsucc)

end Prune

namespace Prune

theorem pruneRun_closed (n : Nat) (succ : Nat → Option Nat)
    (hsucc : ∀ i j, succ i = some j → j < n) :
    ∀ i, i < n → (pruneRun n succ).alive i = true →
      ∃ j, succ i = some j ∧ (pruneRun n succ).alive j = true := by
  have hInv := pruneRun_inv n succ hsucc
  have hqe := pruneRun_queue_empty n succ
  intro i hin hai
  have hd := hInv.degA i hin hai
  cases hls : hasLiveSuccA succ (pruneRun n succ).alive i with
  | true =>
    cases hsp : succ i with
    | none => simp [hasLiveSuccA, hsp] at hls
    | some j =>
      refine ⟨j, rfl, ?_⟩
      simpa [hasLiveSuccA, hsp] using hls
  | false =>
    exfalso
    rw [hls] at hd
    simp at hd
    have := hInv.enq i hin hai hd
    rw [hqe] at this
    simp at this

theorem step_preserves_closed_set (n : Nat) (succ : Nat → Option Nat)
    (hsucc : ∀ i j, succ i = some j → j < n)
    (B : Nat → Prop) (hcl : ∀ i, B i → ∃ j, succ i = some j ∧ B j)
    (st : PState) (hInv : Inv n succ st)
    (hP : ∀ i, B i → i < n → st.alive i = true) :
    ∀ i, B i → i < n → (pruneStep (revAdjOf n succ) st).alive i = true := by
  cases hq : st.queue with
  | nil => rw [pruneStep_eq_nil _ st hq]; exact hP
  | cons x rest =>
    rw [pruneStep_eq_cons _ st x rest hq]
    by_cases hx : st.alive x = false
    · rw [if_pos hx]; exact hP
    · rw [if_neg hx]
      intro i hBi hin
      simp only
      by_cases hix : i = x
      · subst hix
        exfalso
        obtain ⟨j, hsj, hBj⟩ := hcl i hBi
        have hjn : j < n := hsucc i j hsj
        have haj : st.alive j = true := hP j hBj hjn
        have hls : hasLiveSuccA succ st.alive i = true := by
          simp [hasLiveSuccA, hsj, haj]
        have := hInv.qNoLive i (by rw [hq]; exact List.mem_cons_self _ _)
        rw [this] at hls
        exact absurd hls (by simp)
      · rw [Function.update_noteq hix]
        exact hP i hBi hin

theorem pruneRun_greatest (n : Nat) (succ : Nat → Option Nat)
    (hsucc : ∀ i j, succ i = some j → j < n)
    (B : Nat → Prop) (hcl : ∀ i, B i → ∃ j, succ i = some j ∧ B j) :
    ∀ i, B i → i < n → (pruneRun n succ).alive i = true := by
  suffices h : ∀ (fuel : Nat) (st : PState), Inv n succ st →
      (∀ i, B i → i < n → st.alive i = true) →
      ∀ i, B i → i < n → (pruneLoop (revAdjOf n succ) fuel st).alive i = true by
    apply h (3 * n) (initState n succ) (inv_init n succ hsucc)
    intro i _ hin
    simp [initState, hin]
  intro fuel
  induction fuel with
  | zero => intro st _ hP; exact hP
  | succ fuel ih =>
    intro st hInv hP
    cases hq : st.queue with
    | nil => rw [pruneLoop_eq_succ_nil _ fuel st hq]; exact hP
    | cons x rest =>
      rw [pruneLoop_eq_succ_cons _ fuel st x rest hq]
      exact ih _ (inv_step n succ hsucc st hInv)
        (step_preserves_closed_set n succ hsucc B hcl st hInv hP)

theorem pruneRun_alive_infinite_path (n : Nat) (succ : Nat → Option Nat)
    (hsucc : ∀ i j, succ i = some j → j < n)
    (i : Nat) (hin : i < n) (hai : (pruneRun n succ).alive i = true) :
    ∃ f : Nat → Nat, f 0 = i ∧ ∀ k, succ (f k) = some (f (k + 1)) := by
  let f : Nat → Nat := fun k =>
    Nat.rec (motive := fun _ => Nat) i (fun _ prev => (succ prev).getD 0) k
  have hstep : ∀ k, f (k + 1) = (succ (f k)).getD 0 := fun k => rfl
  have key : ∀ k, (pruneRun n succ).alive (f k) = true ∧ f k < n := by
    intro k
    induction k with
    | zero => exact ⟨hai, hin⟩
    | succ k ihk =>
      obtain ⟨hak, hkn⟩ := ihk
      obtain ⟨j, hsj, haj⟩ := pruneRun_closed n succ hsucc (f k) hkn hak
      have hfk1 : f (k + 1) = j := by rw [hstep k, hsj]; rfl
      exact ⟨by rw [hfk1]; exact haj, by rw [hfk1]; exact hsucc (f k) j hsj⟩
  refine ⟨f, rfl, ?_⟩
  intro k
  obtain ⟨hak, hkn⟩ := key k
  obtain ⟨j, hsj, haj⟩ := pruneRun_closed n succ hsucc (f k) hkn hak
  have hfk1 : f (k + 1) = j := by rw [hstep k, hsj]; rfl
  rw [hfk1, hsj]

end Prune

/-- C10. The Survivor Pruning worklist loop terminates on every finite input
graph: the queue is drained within the `3 * n` iteration budget; alive flags
never change from 0 back to 1 (at any step, on any state); and each vertex is
marked dead at most once — `removed` counts every dead vertex exactly once,
so `removed` plus the number of surviving vertices is the vertex count. -/
theorem prune_loop_terminates (n : Nat) (succ : Nat → Option Nat)
    (hsucc : ∀ i j, succ i = some j → j < n) :
    (Prune.pruneRun n succ).queue = [] ∧
    (∀ (revAdj : Nat → List Nat) (st : Prune.PState) (i : Nat),
      (Prune.pruneStep revAdj st).alive i = true → st.alive i = true) ∧
    (Prune.pruneRun n succ).removed + Prune.aliveCount n (Prune.pruneRun n succ) = n ∧
    (Prune.pruneRun n succ).removed ≤ n := by
  have hInv := Prune.pruneRun_inv n succ hsucc
  refine ⟨Prune.pruneRun_queue_empty n succ, Prune.pruneStep_alive_mono, hInv.count, ?_⟩
  have := hInv.count
  omega

/-- C3. After the pruning worklist loop terminates, a vertex `i < n` is alive
iff it has an infinite forward path in the functional graph; the alive set is
a fixed point of "has an outgoing edge to an alive vertex" and contains every
set closed under that predicate (so it is the greatest fixed point); and the
reported survivor count `V - removed` equals its size. -/
theorem prune_survivors_spec (n : Nat) (succ : Nat → Option Nat)
    (hsucc : ∀ i j, succ i = some j → j < n) :
    (∀ i, i < n →
      ((Prune.pruneRun n succ).alive i = true ↔
        ∃ f : Nat → Nat, f 0 = i ∧ ∀ k, succ (f k) = some (f (k + 1)))) ∧
    (∀ i, i < n → (Prune.pruneRun n succ).alive i = true →
      ∃ j, succ i = some j ∧ (Prune.pruneRun n succ).alive j = true) ∧
    (∀ B : Nat → Prop, (∀ i, B i → ∃ j, succ i = some j ∧ B j) →
      ∀ i, B i → i < n → (Prune.pruneRun n succ).alive i = true) ∧
    n - (Prune.pruneRun n succ).removed = Prune.aliveCount n (Prune.pruneRun n succ) := by
  refine ⟨?_, Prune.pruneRun_closed n succ hsucc, Prune.pruneRun_greatest n succ hsucc, ?_⟩
  · intro i hin
    constructor
    · exact Prune.pruneRun_alive_infinite_path n succ hsucc i hin
    · rintro ⟨f, hf0, hfs⟩
      have hB : ∀ v, (∃ k, f k = v) → ∃ j, succ v = some j ∧ ∃ k, f k = j := by
        rintro v ⟨k, rfl⟩
        exact ⟨f (k + 1), hfs k, k + 1, rfl⟩
      exact Prune.pruneRun_greatest n succ hsucc (fun v => ∃ k, f k = v) hB i ⟨0, hf0⟩ hin
  · have := (Prune.pruneRun_inv n succ hsucc).count
    omega

/-- Four-vertex functional test graph: a 2-cycle `0 → 1 → 0`, a tail `2 → 0`
feeding the cycle, and an isolated dead-end vertex `3`. -/
def succ0 : Nat → Option Nat := fun i =>
  if i = 0 then some 1 else if i = 1 then some 0 else if i = 2 then some 0 else none

theorem succ0_bound : ∀ i j, succ0 i = some j → j < 4 := by
  intro i j h
  unfold succ0 at h
  split_ifs at h <;> simp_all <;> omega

/-- C10 witness: the theorem applied to the concrete 4-vertex graph `succ0`. -/
theorem prune_loop_terminates_witness :
    (∀ i j, succ0 i = some j → j < 4) ∧
    ((Prune.pruneRun 4 succ0).queue = [] ∧
    (∀ (revAdj : Nat → List Nat) (st : Prune.PState) (i : Nat),
      (Prune.pruneStep revAdj st).alive i = true → st.alive i = true) ∧
    (Prune.pruneRun 4 succ0).removed + Prune.aliveCount 4 (Prune.pruneRun 4 succ0) = 4 ∧
    (Prune.pruneRun 4 succ0).removed ≤ 4) :=
  ⟨succ0_bound, prune_loop_terminates 4 succ0 succ0_bound⟩

/-- C3 witness: the theorem applied to the concrete 4-vertex graph `succ0`. -/
theorem prune_survivors_spec_witness :
    (∀ i j, succ0 i = some j → j < 4) ∧
    ((∀ i, i < 4 →
      ((Prune.pruneRun 4 succ0).alive i = true ↔
        ∃ f : Nat → Nat, f 0 = i ∧ ∀ k, succ0 (f k) = some (f (k + 1)))) ∧
    (∀ i, i < 4 → (Prune.pruneRun 4 succ0).alive i = true →
      ∃ j, succ0 i = some j ∧ (Prune.pruneRun 4 succ0).alive j = true) ∧
    (∀ B : Nat → Prop, (∀ i, B i → ∃ j, succ0 i = some j ∧ B j) →
      ∀ i, B i → i < 4 → (Prune.pruneRun 4 succ0).alive i = true) ∧
    4 - (Prune.pruneRun 4 succ0).removed = Prune.aliveCount 4 (Prune.pruneRun 4 succ0)) :=
  ⟨succ0_bound, prune_survivors_spec 4 succ0 succ0_bound⟩

/-! ## u_cycle_verifier_m16.py: transition graph builder -/

namespace UCycle

/-- Module constant `S0 = 16`. -/
def S0 : Nat := 16

/-- Module constant `ALPHA = 4`. -/
def ALPHA : Nat := 4

/-- `KQ = S0 + ALPHA`, the q-modulus exponent used in `main`. -/
def KQ : Nat := S0 + ALPHA

/-- `MOD = 1 << KQ`. -/
def MOD : Int := 2 ^ KQ

/-- `T_VALUES = list(range(2, S0 + ALPHA + 3))`, i.e. `[2, 3, ..., 22]`
(also the key set of the `pow3` dict, so `t in pow3` means `t ∈ T_VALUES`). -/
def T_VALUES : List Int :=
  (List.range (S0 + ALPHA + 1)).map (fun t : Nat => (t : Int) + 2)

/-- `pow3[t] = pow(3, t, MOD)` for the window depths (all nonnegative). -/
def pow3 (t : Int) : Int := (3 ^ t.toNat) % MOD

/-- The reduced representative `u = (pow3[T] * q) % MOD` of `3^T q`. -/
def uOf (T q : Int) : Int := (pow3 T * q) % MOD

/-- The two admissibility checks of the vertex enumeration:
`(u & 3) == 3` and `v2((u - 1) & (MOD - 1)) == 1` (exact minimal exit). -/
def minimalExit (T q : Int) : Bool :=
  (Int.land (uOf T q) 3 == 3) && (v2 (Int.land (uOf T q - 1) (MOD - 1)) == 1)

/-- `range(1, MOD, 2)`: the odd `q` values enumerated per depth. -/
def qRange : List Int := VerifyA16.oddRange (2 ^ KQ)

/-- The vertex list built by the enumeration loop: for each `T` in the
window, each odd `q < MOD` passing the minimal-exit checks yields a vertex
`(T, q)` (in enumeration order). -/
def vertices : List (Int × Int) :=
  T_VALUES.flatMap (fun T => (qRange.filter (fun q => minimalExit T q)).map (fun q => (T, q)))

/-- Membership in the vertex dictionary `vid`, as a decidable predicate:
`T` in the window, `q` odd in `[1, MOD)`, and the minimal-exit checks. -/
def admissible (T q : Int) : Bool :=
  decide (T ∈ T_VALUES) && decide (1 ≤ q) && decide (q < MOD) && (q % 2 == 1) &&
    minimalExit T q

/-- The per-vertex edge computation of the builder loop, up to (but not
including) the `vid.get` dictionary lookup: compute `tplus = v2((u+1) % MOD)`;
require `tplus >= 2`; `Tn = tplus - 1`; `qp = (u+1) >> (Tn+1)`; require `qp`
odd; require `Tn` in the window (`Tn in pow3`); mask `qp &= MOD - 1`; require
the minimal-exit valuation check at the target. -/
def edgeCandidate (T q : Int) : Option (Int × Int) :=
  let u := uOf T q
  let tplus := v2 ((u + 1) % MOD)
  if tplus ≤ 1 then none
  else
    let Tn := tplus - 1
    let qp := pyShiftRight (u + 1) (Tn + 1)
    if Int.land qp 1 == 0 then none
    else if Tn ∈ T_VALUES then
      let qp2 := Int.land qp (MOD - 1)
      let un := (pow3 Tn * qp2) % MOD
      if v2 (Int.land (un - 1) (MOD - 1)) == 1 then some (Tn, qp2)
      else none
    else none

/-- The complete edge computation: the candidate followed by the
`j = vid.get((Tn, qp)); if j is None: continue` lookup. -/
def edgeTarget (T q : Int) : Option (Int × Int) :=
  match edgeCandidate T q with
  | none => none
  | some s => if s ∈ vertices then some s else none

/-- The forward adjacency assembled by the edge loop: for vertex `i`,
`out_adj[i]` receives the single computed target, if any (the loop body runs
`out_adj[i].append(j)` at most once per `i`). -/
def out_adj : List (List (Int × Int)) :=
  vertices.map (fun s =>
    match edgeTarget s.1 s.2 with
    | none => []
    | some t => [t])

/-- The re-entry depth `T' = v2((u + 1) % MOD) - 1` derived from the
valuation of the reduced representative of `3^T q + 1`. -/
def reT (T q : Int) : Int := v2 ((uOf T q + 1) % MOD) - 1

/-- The updated value `q' = (u + 1) >> (T' + 1)`. -/
def reQ (T q : Int) : Int := pyShiftRight (uOf T q + 1) (reT T q + 1)

theorem T_VALUES_ge_two : ∀ t ∈ T_VALUES, 2 ≤ t := by
  intro t ht
  unfold T_VALUES at ht
  obtain ⟨i, -, rfl⟩ := List.mem_map.mp ht
  omega

theorem MOD_pos : (0 : Int) < MOD := by unfold MOD; positivity

theorem uOf_nonneg (T q : Int) : 0 ≤ uOf T q :=
  Int.emod_nonneg _ MOD_pos.ne'

theorem uOf_lt (T q : Int) : uOf T q < MOD :=
  Int.emod_lt_of_pos _ MOD_pos

theorem land_coe_coe (a b : Nat) : Int.land (a : Int) (b : Int) = (Nat.land a b : Int) := rfl

theorem land_two_pow_sub_one (a : Int) (k : Nat) (ha : 0 ≤ a) :
    Int.land a (2 ^ k - 1) = a % 2 ^ k := by
  obtain ⟨n, rfl⟩ := Int.eq_ofNat_of_zero_le ha
  have h2k : (1:ℕ) ≤ 2 ^ k := Nat.one_le_two_pow
  have hcast : ((2 ^ k - 1 : ℕ) : ℤ) = (2 : ℤ) ^ k - 1 := by
    push_cast [h2k]
    ring
  rw [← hcast, land_coe_coe]
  show ((Nat.land n (2 ^ k - 1) : ℕ) : ℤ) = _
  have hand : Nat.land n (2 ^ k - 1) = n % 2 ^ k := Nat.and_pow_two_sub_one_eq_mod n k
  rw [hand]
  push_cast
  ring

theorem land_one_eq_mod (a : Int) (ha : 0 ≤ a) : Int.land a 1 = a % 2 := by
  have h := land_two_pow_sub_one a 1 ha
  norm_num at h
  exact h

theorem land_three_eq_mod (a : Int) (ha : 0 ≤ a) : Int.land a 3 = a % 4 := by
  have h := land_two_pow_sub_one a 2 ha
  norm_num at h
  exact h

theorem pyShiftRight_coe (m : Nat) (k : Int) :
    pyShiftRight (m : Int) k = ((m / 2 ^ k.toNat : Nat) : Int) := by
  unfold pyShiftRight
  have h2K : ((2 ^ k.toNat : Nat) : Int) = (2 : Int) ^ k.toNat := by push_cast; ring
  rw [← h2K, Int.fdiv_eq_tdiv (by positivity) (by positivity), ← Int.ofNat_tdiv]

theorem mem_qRange (q : Int) : q ∈ qRange ↔ 1 ≤ q ∧ q < MOD ∧ q % 2 = 1 := by
  have hM : (2:ℕ) ^ KQ / 2 = 2 ^ (KQ - 1) := by
    simp only [KQ, S0, ALPHA]
    norm_num
  have hMOD : MOD = 2 * 2 ^ ((KQ - 1 : ℕ) : ℕ) := by
    unfold MOD
    simp only [KQ, S0, ALPHA]
    norm_num
  unfold qRange VerifyA16.oddRange
  rw [hM]
  constructor
  · intro hq
    obtain ⟨i, hi, rfl⟩ := List.mem_map.mp hq
    rw [List.mem_range] at hi
    have hiZ : (i : ℤ) < (2:ℤ) ^ (KQ - 1) := by exact_mod_cast hi
    refine ⟨by omega, ?_, by omega⟩
    rw [hMOD]
    omega
  · rintro ⟨h1, h2, h3⟩
    rw [List.mem_map]
    refine ⟨((q - 1) / 2).toNat, ?_, ?_⟩
    · rw [List.mem_range]
      have hq2 : q < 2 * 2 ^ ((KQ - 1 : ℕ) : ℕ) := by rw [← hMOD]; exact h2
      have hdiv : (q - 1) / 2 < (2:ℤ) ^ (KQ - 1) := by omega
      have hfin : (((q - 1) / 2).toNat : ℤ) < ((2 ^ (KQ - 1) : ℕ) : ℤ) := by
        rw [Int.toNat_of_nonneg (by omega)]
        push_cast
        exact hdiv
      exact_mod_cast hfin
    · rw [Int.toNat_of_nonneg (by omega)]
      omega

theorem mem_vertices (T q : Int) : (T, q) ∈ vertices ↔ admissible T q = true := by
  unfold vertices admissible
  rw [List.mem_flatMap]
  simp only [List.mem_map, List.mem_filter]
  constructor
  · rintro ⟨T', hT', q', ⟨hq', hme⟩, heq⟩
    obtain ⟨hT2, hq2⟩ := (Prod.mk.injEq T' q' T q).mp heq
    subst hT2
    subst hq2
    obtain ⟨h1, h2, h3⟩ := (mem_qRange q').mp hq'
    simp [hT', h1, h2, h3, hme]
  · intro h
    simp only [Bool.and_eq_true, decide_eq_true_eq, beq_iff_eq] at h
    obtain ⟨⟨⟨⟨hT, h1⟩, h2⟩, h3⟩, hme⟩ := h
    exact ⟨T, hT, q, ⟨(mem_qRange q).mpr ⟨h1, h2, h3⟩, hme⟩, rfl⟩

end UCycle

/-- C5. Every vertex of the graph built by the transition-graph builder has
out-degree 0 or 1: each `out_adj[i]` holds at most one target (the graph is
functional, since the successor is a deterministic arithmetic formula).
Out-of-range indices read the empty list. -/
theorem out_adj_functional :
    ∀ i : Nat, (UCycle.out_adj.getD i []).length = 0 ∨ (UCycle.out_adj.getD i []).length = 1 := by
  intro i
  by_cases h : i < UCycle.out_adj.length
  · have hmem : UCycle.out_adj.getD i [] ∈ UCycle.out_adj := by
      rw [List.getD_eq_getElem _ _ h]
      exact List.getElem_mem _
    obtain ⟨s, -, heq⟩ := List.mem_map.mp hmem
    rw [← heq]
    cases hET : UCycle.edgeTarget s.1 s.2 <;> simp [hET]
  · rw [List.getD_eq_default _ _ (by omega)]
    simp

namespace UCycle

theorem reQ_nonneg_lt (T q : Int) (htp : ¬ v2 ((uOf T q + 1) % MOD) ≤ 1) :
    0 ≤ reQ T q ∧ reQ T q < MOD := by
  have hu0 : 0 ≤ uOf T q := uOf_nonneg T q
  have hu1 : uOf T q < MOD := uOf_lt T q
  have hMODval : MOD = (1048576 : Int) := by unfold MOD KQ S0 ALPHA; norm_num
  have hm : (((uOf T q + 1).toNat : Nat) : Int) = uOf T q + 1 :=
    Int.toNat_of_nonneg (by omega)
  have hmB : (uOf T q + 1).toNat ≤ 1048576 := by omega
  have htp2 : 2 ≤ v2 ((uOf T q + 1) % MOD) := by omega
  have hsh : (reT T q + 1).toNat = (v2 ((uOf T q + 1) % MOD)).toNat := by
    unfold reT
    omega
  have hshB : 2 ≤ (reT T q + 1).toNat := by rw [hsh]; omega
  have hq : reQ T q = (((uOf T q + 1).toNat / 2 ^ (reT T q + 1).toNat : Nat) : Int) := by
    unfold reQ
    rw [← hm, pyShiftRight_coe, Int.toNat_natCast]
  have hndiv : (uOf T q + 1).toNat / 2 ^ (reT T q + 1).toNat < 1048576 := by
    have h4 : (4:Nat) ≤ 2 ^ (reT T q + 1).toNat := by
      calc (4:Nat) = 2 ^ 2 := by norm_num
        _ ≤ 2 ^ (reT T q + 1).toNat := Nat.pow_le_pow_right (by norm_num) hshB
    have h1 : (uOf T q + 1).toNat / 2 ^ (reT T q + 1).toNat ≤ (uOf T q + 1).toNat / 4 :=
      Nat.div_le_div_left h4 (by norm_num)
    have h2 : (uOf T q + 1).toNat / 4 ≤ 1048576 / 4 := Nat.div_le_div_right hmB
    omega
  constructor
  · rw [hq]; positivity
  · rw [hq, hMODval]
    exact_mod_cast hndiv

theorem reQ_mask (T q : Int) (htp : ¬ v2 ((uOf T q + 1) % MOD) ≤ 1) :
    Int.land (reQ T q) (MOD - 1) = reQ T q := by
  obtain ⟨h0, h1⟩ := reQ_nonneg_lt T q htp
  have : Int.land (reQ T q) (2 ^ KQ - 1) = reQ T q % 2 ^ KQ :=
    land_two_pow_sub_one (reQ T q) KQ h0
  unfold MOD at h1 ⊢
  rw [this, Int.emod_eq_of_lt h0 h1]

/-- C4. An admissible vertex `(T, q)` receives an outgoing edge exactly when:
the re-entry depth `T' = v2((u+1) % MOD) - 1` derived from the valuation of
the representative of `3^T q + 1` satisfies `T' ≥ 2`; the updated value
`q' = (u+1) >> (T'+1)` is odd; `T'` lies in the depth window `T_VALUES`; and
the target state `(T', q')` satisfies the minimal-exit admissibility
predicate (membership in the vertex set).  Moreover the edge, when present,
goes to `(T', q')`. -/
theorem edge_condition (T q : Int) (_hadm : admissible T q = true) :
    ((edgeTarget T q).isSome = true ↔
      (2 ≤ reT T q ∧ reQ T q % 2 = 1 ∧ reT T q ∈ T_VALUES ∧
        admissible (reT T q) (reQ T q) = true)) ∧
    (∀ s, edgeTarget T q = some s → s = (reT T q, reQ T q)) := by
  by_cases htp : v2 ((uOf T q + 1) % MOD) ≤ 1
  · have hcand : edgeCandidate T q = none := by
      unfold edgeCandidate
      rw [if_pos htp]
    have hET : edgeTarget T q = none := by
      unfold edgeTarget
      rw [hcand]
    rw [hET]
    constructor
    · constructor
      · intro h; exact absurd h (by simp)
      · rintro ⟨h2, -, -, -⟩
        unfold reT at h2
        omega
    · intro s hs
      exact absurd hs (by simp)
  · obtain ⟨hqp0, hqplt⟩ := reQ_nonneg_lt T q htp
    have hmask := reQ_mask T q htp
    have hcand : edgeCandidate T q =
        (if Int.land (reQ T q) 1 == 0 then none
         else if reT T q ∈ T_VALUES then
           (if v2 (Int.land ((pow3 (reT T q) * Int.land (reQ T q) (MOD - 1)) % MOD - 1)
                (MOD - 1)) == 1 then
              some (reT T q, Int.land (reQ T q) (MOD - 1))
            else none)
         else none) := by
      unfold edgeCandidate reT reQ
      rw [if_neg htp]
      rfl
    rw [land_one_eq_mod (reQ T q) hqp0, hmask] at hcand
    by_cases hodd : reQ T q % 2 = 1
    · rw [hodd] at hcand
      simp only [(by decide : ((1:Int) == 0) = false), Bool.false_eq_true, if_false] at hcand
      by_cases hwin : reT T q ∈ T_VALUES
      · rw [if_pos hwin] at hcand
        have hT2 : 2 ≤ reT T q := T_VALUES_ge_two _ hwin
        by_cases hv : v2 (Int.land ((pow3 (reT T q) * reQ T q) % MOD - 1) (MOD - 1)) = 1
        · rw [if_pos (beq_iff_eq.mpr hv)] at hcand
          have hET : edgeTarget T q =
              (if (reT T q, reQ T q) ∈ vertices then some (reT T q, reQ T q) else none) := by
            unfold edgeTarget
            rw [hcand]
          rw [hET]
          by_cases hmem : (reT T q, reQ T q) ∈ vertices
          · rw [if_pos hmem]
            have hadmT := (mem_vertices _ _).mp hmem
            constructor
            · simp [hT2, hodd, hwin, hadmT]
            · intro s hs
              exact (Option.some_inj.mp hs).symm
          · rw [if_neg hmem]
            constructor
            · constructor
              · intro h; exact absurd h (by simp)
              · rintro ⟨-, -, -, hadmT⟩
                exact absurd ((mem_vertices _ _).mpr hadmT) hmem
            · intro s hs
              exact absurd hs (by simp)
        · rw [if_neg (by simpa using hv)] at hcand
          have hET : edgeTarget T q = none := by unfold edgeTarget; rw [hcand]
          rw [hET]
          constructor
          · constructor
            · intro h; exact absurd h (by simp)
            · rintro ⟨-, -, -, hadmT⟩
              exfalso
              apply hv
              have hme : minimalExit (reT T q) (reQ T q) = true := by
                unfold admissible at hadmT
                simp only [Bool.and_eq_true] at hadmT
                exact hadmT.2
              unfold minimalExit uOf at hme
              simp only [Bool.and_eq_true, beq_iff_eq] at hme
              exact hme.2
          · intro s hs
            exact absurd hs (by simp)
      · rw [if_neg hwin] at hcand
        have hET : edgeTarget T q = none := by unfold edgeTarget; rw [hcand]
        rw [hET]
        constructor
        · constructor
          · intro h; exact absurd h (by simp)
          · rintro ⟨-, -, hwin', -⟩
            exact absurd hwin' hwin
        · intro s hs
          exact absurd hs (by simp)
    · have hodd0 : reQ T q % 2 = 0 := by omega
      rw [hodd0] at hcand
      simp only [(by decide : ((0:Int) == 0) = true), if_true] at hcand
      have hET : edgeTarget T q = none := by unfold edgeTarget; rw [hcand]
      rw [hET]
      constructor
      · constructor
        · intro h; exact absurd h (by simp)
        · rintro ⟨-, hodd', -, -⟩
          exact absurd hodd' hodd
      · intro s hs
        exact absurd hs (by simp)

end UCycle

theorem v2_26 : v2 26 = 1 := by
  have h := v2_of_decomp 1 13 (by norm_num)
  norm_num at h
  exact h

theorem admissible_2_3 : UCycle.admissible 2 3 = true := by
  unfold UCycle.admissible UCycle.minimalExit
  have h1 : Int.land (UCycle.uOf 2 3 - 1) (UCycle.MOD - 1) = 26 := by decide
  rw [h1, v2_26]
  decide

/-- C4 witness: the edge-condition theorem applied at the concrete admissible
state `(T, q) = (2, 3)` (where `u = 27 ≡ 3 (mod 4)` and `v2(26) = 1`). -/
theorem edge_condition_witness :
    UCycle.admissible 2 3 = true ∧
    (((UCycle.edgeTarget 2 3).isSome = true ↔
      (2 ≤ UCycle.reT 2 3 ∧ UCycle.reQ 2 3 % 2 = 1 ∧ UCycle.reT 2 3 ∈ UCycle.T_VALUES ∧
        UCycle.admissible (UCycle.reT 2 3) (UCycle.reQ 2 3) = true)) ∧
    (∀ s, UCycle.edgeTarget 2 3 = some s → s = (UCycle.reT 2 3, UCycle.reQ 2 3))) :=
  ⟨admissible_2_3, UCycle.edge_condition 2 3 admissible_2_3⟩
